import Mathlib

/-!
Verification of the doubly linked list implemented in
`code-examples/list/list.cpp`.

Heap addresses are natural numbers and stand in for C++ pointers; an
`Option Nat` is a possibly null pointer.

The C++ code manipulates heap-allocated `ListNode<T>` objects through raw
pointers.  We embed this shallowly: an address is a natural number, the heap
is an association list from addresses to node records, and allocation is a
bump allocator (`alloc` is the next fresh address).  Each member function of
`DoublyLinkedList<T>` is translated loop-for-loop; the `while (current)`
loops walk `next`/`prev` pointers and are given explicit fuel (one unit per
loop iteration).  On every state reachable through the public interface the
fuel `heap.length + 1` is enough, so a fuel-exhausted result (`none`) models
a walk the C++ program could only perform on a corrupted heap.

`operator[]` is declared in the source to return `int`, not `T`; the
implicit conversion `T -> int` performed by `return current->value;` is
modelled by an explicit conversion function argument `toInt`.  Likewise the
stream-output operator's `out << current->value` is modelled by a textual
rendering argument `toStr`.
-/

/-- `ListNode<T>`: a value plus possibly-null `prev` and `next` pointers. -/
structure ListNode (T : Type) where
  value : T
  prev : Option Nat
  next : Option Nat
deriving DecidableEq

/-- The `ListNode` constructor.  In C++ `prev` and `next` default to
`nullptr`; the constructor merely stores its three arguments. -/
def ListNode.make {T : Type} (value : T) (prev next : Option Nat) : ListNode T :=
  ⟨value, prev, next⟩

/-- A heap: finitely many allocated cells, identified by address. -/
abbrev Heap (T : Type) := List (Nat × ListNode T)

/-- Reading the node behind a pointer (`*p`).  Returns `none` if the address
is not allocated (a dangling pointer, undefined behaviour in C++). -/
def heapLookup {T : Type} (h : Heap T) (a : Nat) : Option (ListNode T) :=
  match h with
  | [] => none
  | (b, nd) :: rest => if b = a then some nd else heapLookup rest a

/-- Writing through a pointer (`p->field = ...`): replaces the cell at
address `a` by `f` of its old contents; a no-op on unallocated addresses. -/
def heapUpdate {T : Type} (h : Heap T) (a : Nat) (f : ListNode T → ListNode T) :
    Heap T :=
  match h with
  | [] => []
  | (b, nd) :: rest =>
    if b = a then (b, f nd) :: rest else (b, nd) :: heapUpdate rest a f

/-- `delete p`: deallocates the cell at address `a`. -/
def heapErase {T : Type} (h : Heap T) (a : Nat) : Heap T :=
  match h with
  | [] => []
  | (b, nd) :: rest => if b = a then rest else (b, nd) :: heapErase rest a

/-- `new ListNode<T>{value, prev, next}`: allocates a fresh cell holding the
constructed node.  The constructor touches no other cell. -/
def allocNode {T : Type} (h : Heap T) (fresh : Nat) (value : T)
    (prev next : Option Nat) : Heap T :=
  h ++ [(fresh, ListNode.make value prev next)]

/-- `DoublyLinkedList<T>`: private members `begin`, `end`, `_size`, together
with the heap of nodes the list owns and the allocator state. -/
structure DoublyLinkedList (T : Type) where
  heap : Heap T
  alloc : Nat
  begin : Option Nat
  «end» : Option Nat
  _size : Nat
deriving DecidableEq

/-- The default constructor `DoublyLinkedList()`: empty heap, null `begin`
and `end`, `_size = 0`. -/
def DoublyLinkedList.empty (T : Type) : DoublyLinkedList T :=
  ⟨[], 0, none, none, 0⟩

/-- `append(T value)`: allocates a node for `value`; if the list is empty it
becomes both `begin` and `end`, otherwise it is linked after the current
`end` (`new_node->prev = end; end->next = new_node; end = new_node`), and
`_size` is incremented.  The `(some _, none)` case corresponds to the C++
null dereference of `end` (impossible on reachable states): we model it as
skipping the `end->next` write. -/
def DoublyLinkedList.append {T : Type} (l : DoublyLinkedList T) (value : T) :
    DoublyLinkedList T :=
  let addr := l.alloc
  match l.begin, l.«end» with
  | none, _ =>
    ⟨allocNode l.heap addr value none none, addr + 1, some addr, some addr,
      l._size + 1⟩
  | some b, some e =>
    ⟨allocNode (heapUpdate l.heap e fun nd => ⟨nd.value, nd.prev, some addr⟩)
        addr value (some e) none,
      addr + 1, some b, some addr, l._size + 1⟩
  | some b, none =>
    ⟨allocNode l.heap addr value none none, addr + 1, some b, some addr,
      l._size + 1⟩

/-- The `while (current)` loop of `clear()`: repeatedly `delete` the current
node and advance to its `next`.  One fuel unit per iteration. -/
def clearLoop {T : Type} (h : Heap T) (cur : Option Nat) (fuel : Nat) : Heap T :=
  match cur with
  | none => h
  | some a =>
    match fuel with
    | 0 => h
    | fuel' + 1 =>
      match heapLookup h a with
      | none => h
      | some nd => clearLoop (heapErase h a) nd.next fuel'

/-- `clear()`: frees every node from `begin` following `next`, then resets
`begin`, `end` to null and `_size` to `0`. -/
def DoublyLinkedList.clear {T : Type} (l : DoublyLinkedList T) : DoublyLinkedList T :=
  ⟨clearLoop l.heap l.begin l.heap.length, l.alloc, none, none, 0⟩

/-- The `while (current)` loop of `operator[]`: walk from `begin`, counting
`cur_index` up, and return the current node's value (converted to `int`)
when `cur_index == index`.  `some (some v)` models `return v;`,
`some none` models falling out of the loop (the `throw` follows), and
`none` models a walk the C++ program never finishes (corrupted heap). -/
def indexLoop {T : Type} (h : Heap T) (toInt : T → Int) (index : Nat)
    (cur : Option Nat) (cur_index fuel : Nat) : Option (Option Int) :=
  match cur with
  | none => some none
  | some a =>
    match fuel with
    | 0 => none
    | fuel' + 1 =>
      match heapLookup h a with
      | none => none
      | some nd =>
        if cur_index = index then some (some (toInt nd.value))
        else indexLoop h toInt index nd.next (cur_index + 1) fuel'

/-- `int operator[](std::size_t index)`: returns the value at `index`
(converted to `int` by the declared return type), or throws
`std::out_of_range` with message
`"index=" + std::to_string(index) + " larger than list size=" + std::to_string(_size)`. -/
def DoublyLinkedList.get {T : Type} (l : DoublyLinkedList T) (toInt : T → Int)
    (index : Nat) : Option (Except String Int) :=
  match indexLoop l.heap toInt index l.begin 0 (l.heap.length + 1) with
  | none => none
  | some (some v) => some (Except.ok v)
  | some none =>
    some (Except.error
      ("index=" ++ toString index ++ " larger than list size=" ++ toString l._size))

/-- `size()`: returns the maintained `_size` member. -/
def DoublyLinkedList.size {T : Type} (l : DoublyLinkedList T) : Nat :=
  l._size

/-- The `while (current)` loop of `size_naive()`: count nodes from `begin`
via `next`. -/
def sizeLoop {T : Type} (h : Heap T) (cur : Option Nat) (result fuel : Nat) :
    Option Nat :=
  match cur with
  | none => some result
  | some a =>
    match fuel with
    | 0 => none
    | fuel' + 1 =>
      match heapLookup h a with
      | none => none
      | some nd => sizeLoop h nd.next (result + 1) fuel'

/-- `size_naive()`: the O(n) recount of the chain. -/
def DoublyLinkedList.size_naive {T : Type} (l : DoublyLinkedList T) : Option Nat :=
  sizeLoop l.heap l.begin 0 (l.heap.length + 1)

/-- The `while (current)` loop of `operator<<`: emit each value followed by
a space. -/
def renderLoop {T : Type} (h : Heap T) (toStr : T → String) (cur : Option Nat)
    (acc : String) (fuel : Nat) : Option String :=
  match cur with
  | none => some acc
  | some a =>
    match fuel with
    | 0 => none
    | fuel' + 1 =>
      match heapLookup h a with
      | none => none
      | some nd => renderLoop h toStr nd.next (acc ++ toStr nd.value ++ " ") fuel'

/-- `operator<<(std::ostream&, const DoublyLinkedList<T>&)`: emits `"[ "`,
each value followed by `" "`, then `"]"`. -/
def DoublyLinkedList.render {T : Type} (l : DoublyLinkedList T)
    (toStr : T → String) : Option String :=
  match renderLoop l.heap toStr l.begin "[ " (l.heap.length + 1) with
  | none => none
  | some s => some (s ++ "]")

/-- Iterating `next` pointers: one pointer dereference per step. -/
def walkNext {T : Type} (h : Heap T) (cur : Option Nat) : Nat → Option Nat
  | 0 => cur
  | steps + 1 =>
    match cur with
    | none => none
    | some a =>
      match heapLookup h a with
      | none => none
      | some nd => walkNext h nd.next steps

/-- Iterating `prev` pointers: one pointer dereference per step. -/
def walkPrev {T : Type} (h : Heap T) (cur : Option Nat) : Nat → Option Nat
  | 0 => cur
  | steps + 1 =>
    match cur with
    | none => none
    | some a =>
      match heapLookup h a with
      | none => none
      | some nd => walkPrev h nd.prev steps

/-- The public mutating interface: the operations a client may perform after
construction. -/
inductive Op (T : Type) where
  | append (v : T)
  | clear
deriving DecidableEq

/-- Apply one operation. -/
def applyOp {T : Type} (l : DoublyLinkedList T) : Op T → DoublyLinkedList T
  | Op.append v => l.append v
  | Op.clear => l.clear

/-- Run a sequence of operations from a given state. -/
def runFrom {T : Type} (l : DoublyLinkedList T) (ops : List (Op T)) :
    DoublyLinkedList T :=
  ops.foldl applyOp l

/-- Run a sequence of operations on a freshly constructed list: exactly the
states a client can reach. -/
def runOps {T : Type} (ops : List (Op T)) : DoublyLinkedList T :=
  runFrom (DoublyLinkedList.empty T) ops

/-- The value sequence an operation sequence leaves in the list: `append`
snocs, `clear` resets. -/
def modelStep {T : Type} (vs : List T) : Op T → List T
  | Op.append v => vs ++ [v]
  | Op.clear => []

/-- The value sequence after running `ops` from empty. -/
def opsModel {T : Type} (ops : List (Op T)) : List T :=
  ops.foldl modelStep []

/-- The canonical heap of a chain holding `vs` at consecutive addresses
`base, base+1, ...`, whose first node's `prev` is `prev`. -/
def chainCells {T : Type} (base : Nat) (prev : Option Nat) (vs : List T) :
    Heap T :=
  match vs with
  | [] => []
  | v :: rest =>
    match rest with
    | [] => [(base, ⟨v, prev, none⟩)]
    | _ :: _ => (base, ⟨v, prev, some (base + 1)⟩) :: chainCells (base + 1) (some base) rest

/-- The `begin` pointer of a canonical chain. -/
def headPtr {T : Type} (base : Nat) (vs : List T) : Option Nat :=
  match vs with
  | [] => none
  | _ :: _ => some base

/-- The `end` pointer of a canonical chain. -/
def tailPtr {T : Type} (base : Nat) (vs : List T) : Option Nat :=
  match vs with
  | [] => none
  | _ :: _ => some (base + (vs.length - 1))

/-- The canonical list state holding the values `vs` in nodes at addresses
`base, ..., base + vs.length - 1`.  Every reachable state has this shape. -/
def mkState {T : Type} (base : Nat) (vs : List T) : DoublyLinkedList T :=
  ⟨chainCells base none vs, base + vs.length, headPtr base vs, tailPtr base vs,
    vs.length⟩

/-- `cur` points at a well-formed chain in `h` holding values `vs`, the first
node's `prev` being `prevA`. -/
def ChainAt {T : Type} (h : Heap T) : Option Nat → Option Nat → List T → Prop
  | cur, _, [] => cur = none
  | cur, prevA, v :: rest =>
    ∃ a nd, cur = some a ∧ heapLookup h a = some nd ∧ nd.value = v ∧
      nd.prev = prevA ∧ ChainAt h nd.next (some a) rest

/-- The body of the rendered string: each value's textual form followed by a
single space, in chain order. -/
def renderBody {T : Type} (toStr : T → String) : List T → String
  | [] => ""
  | v :: rest => toStr v ++ " " ++ renderBody toStr rest

/-- The C++ conversion `double -> int` (truncation toward zero), on exact
rationals.  Used to instantiate the element type `T` at a non-integral type
and observe the `int` return type of `operator[]`. -/
def cppIntOfRat (q : Rat) : Int :=
  q.num.tdiv (q.den : Int)

/-! ### Heap primitive lemmas -/

theorem heapLookup_append_left {T : Type} {h₁ h₂ : Heap T} {a : Nat}
    {nd : ListNode T} (hl : heapLookup h₁ a = some nd) :
    heapLookup (h₁ ++ h₂) a = some nd := by
  induction h₁ with
  | nil => simp [heapLookup] at hl
  | cons c rest ih =>
    obtain ⟨b, nd'⟩ := c
    simp only [heapLookup, List.cons_append] at hl ⊢
    by_cases hba : b = a
    · simpa [hba] using hl
    · rw [if_neg hba] at hl ⊢
      exact ih hl

theorem heapLookup_append_right {T : Type} {h₁ : Heap T} (h₂ : Heap T) {a : Nat}
    (hl : heapLookup h₁ a = none) :
    heapLookup (h₁ ++ h₂) a = heapLookup h₂ a := by
  induction h₁ with
  | nil => simp
  | cons c rest ih =>
    obtain ⟨b, nd'⟩ := c
    simp only [heapLookup, List.cons_append] at hl ⊢
    split at hl
    · exact absurd hl (by simp)
    · rename_i hba
      simp only [if_neg hba]
      exact ih hl

theorem heapLookup_update_self {T : Type} (h : Heap T) (e : Nat)
    (f : ListNode T → ListNode T) :
    heapLookup (heapUpdate h e f) e = (heapLookup h e).map f := by
  induction h with
  | nil => simp [heapLookup, heapUpdate]
  | cons c rest ih =>
    obtain ⟨b, nd⟩ := c
    by_cases hb : b = e
    · subst hb
      simp [heapLookup, heapUpdate]
    · simp [heapLookup, heapUpdate, hb, ih]

theorem heapLookup_update_ne {T : Type} (h : Heap T) {a e : Nat}
    (f : ListNode T → ListNode T) (hne : a ≠ e) :
    heapLookup (heapUpdate h e f) a = heapLookup h a := by
  induction h with
  | nil => simp [heapLookup, heapUpdate]
  | cons c rest ih =>
    obtain ⟨b, nd⟩ := c
    by_cases hb : b = e
    · subst hb
      simp [heapLookup, heapUpdate, Ne.symm hne]
    · by_cases hba : b = a <;> simp [heapLookup, heapUpdate, hb, hba, hne, ih]

theorem heapErase_cons_self {T : Type} (a : Nat) (nd : ListNode T) (rest : Heap T) :
    heapErase ((a, nd) :: rest) a = rest := by
  simp [heapErase]

/-! ### Canonical chain lemmas -/

theorem chainCells_nil {T : Type} (base : Nat) (prev : Option Nat) :
    chainCells base prev ([] : List T) = [] := rfl

theorem chainCells_singleton {T : Type} (base : Nat) (prev : Option Nat) (v : T) :
    chainCells base prev [v] = [(base, ⟨v, prev, none⟩)] := rfl

theorem chainCells_cons₂ {T : Type} (base : Nat) (prev : Option Nat)
    (v u : T) (rest : List T) :
    chainCells base prev (v :: u :: rest) =
      (base, ⟨v, prev, some (base + 1)⟩) ::
        chainCells (base + 1) (some base) (u :: rest) := rfl

theorem chainCells_length {T : Type} (vs : List T) :
    ∀ (base : Nat) (prev : Option Nat),
      (chainCells base prev vs).length = vs.length := by
  induction vs with
  | nil => intro base prev; simp [chainCells_nil]
  | cons v rest ih =>
    intro base prev
    cases rest with
    | nil => simp [chainCells_singleton]
    | cons u rest' =>
      rw [chainCells_cons₂]
      simp [ih]

theorem chainCells_lookup_domain {T : Type} (vs : List T) :
    ∀ (base : Nat) (prev : Option Nat) (a : Nat) (nd : ListNode T),
      heapLookup (chainCells base prev vs) a = some nd →
      base ≤ a ∧ a < base + vs.length := by
  induction vs with
  | nil => intro base prev a nd hl; simp [chainCells_nil, heapLookup] at hl
  | cons v rest ih =>
    intro base prev a nd hl
    cases rest with
    | nil =>
      rw [chainCells_singleton] at hl
      simp only [heapLookup] at hl
      split at hl
      · simp only [List.length_singleton]
        omega
      · simp [heapLookup] at hl
    | cons u rest' =>
      rw [chainCells_cons₂] at hl
      simp only [heapLookup] at hl
      split at hl
      · simp only [List.length_cons]
        omega
      · have := ih (base + 1) (some base) a nd hl
        simp only [List.length_cons] at this ⊢
        omega

theorem chainCells_lookup {T : Type} (vs : List T) :
    ∀ (base : Nat) (prev : Option Nat) (i : Nat) (hi : i < vs.length),
      heapLookup (chainCells base prev vs) (base + i) =
        some ⟨vs[i],
          (if i = 0 then prev else some (base + i - 1)),
          (if i + 1 = vs.length then none else some (base + i + 1))⟩ := by
  induction vs with
  | nil => intro base prev i hi; simp at hi
  | cons v rest ih =>
    intro base prev i hi
    cases rest with
    | nil =>
      have hi0 : i = 0 := by simpa using Nat.lt_one_iff.mp (by simpa using hi)
      subst hi0
      simp [chainCells_singleton, heapLookup]
    | cons u rest' =>
      cases i with
      | zero =>
        rw [chainCells_cons₂]
        have hne : ¬ ((0 : Nat) + 1 = (v :: u :: rest').length) := by
          simp only [List.length_cons]
          omega
        rw [if_neg hne, if_pos rfl]
        simp [heapLookup]
      | succ j =>
        have hj : j < (u :: rest').length := by
          simpa using Nat.lt_of_succ_lt_succ hi
        rw [chainCells_cons₂]
        simp only [heapLookup]
        rw [if_neg (by omega),
          show base + (j + 1) = (base + 1) + j by omega,
          ih (base + 1) (some base) j hj]
        simp only [Option.some.injEq, ListNode.mk.injEq]
        refine ⟨?_, ?_, ?_⟩
        · simp
        · cases j with
          | zero => norm_num
          | succ k =>
            rw [if_neg (by omega), if_neg (by omega)]
        · simp only [List.length_cons]
          by_cases hc : j + 1 = rest'.length + 1
          · rw [if_pos hc, if_pos (by omega)]
          · rw [if_neg hc, if_neg (by omega)]

theorem chainAt_nil {T : Type} (h : Heap T) (cur prevA : Option Nat) :
    ChainAt h cur prevA [] = (cur = none) := rfl

theorem chainAt_cons {T : Type} (h : Heap T) (cur prevA : Option Nat) (v : T)
    (rest : List T) :
    ChainAt h cur prevA (v :: rest) =
      (∃ a nd, cur = some a ∧ heapLookup h a = some nd ∧ nd.value = v ∧
        nd.prev = prevA ∧ ChainAt h nd.next (some a) rest) := rfl

theorem chainAt_mono {T : Type} {h h' : Heap T}
    (hsub : ∀ a nd, heapLookup h a = some nd → heapLookup h' a = some nd) :
    ∀ (vs : List T) (cur prevA : Option Nat),
      ChainAt h cur prevA vs → ChainAt h' cur prevA vs := by
  intro vs
  induction vs with
  | nil => intro cur prevA hc; exact hc
  | cons v rest ih =>
    intro cur prevA hc
    rw [chainAt_cons] at hc ⊢
    obtain ⟨a, nd, hcur, hl, hv, hp, hrest⟩ := hc
    exact ⟨a, nd, hcur, hsub a nd hl, hv, hp, ih nd.next (some a) hrest⟩

theorem chainAt_chainCells {T : Type} (vs : List T) :
    ∀ (base : Nat) (prev : Option Nat),
      ChainAt (chainCells base prev vs) (headPtr base vs) prev vs := by
  induction vs with
  | nil => intro base prev; exact rfl
  | cons v rest ih =>
    intro base prev
    cases rest with
    | nil =>
      rw [chainAt_cons]
      refine ⟨base, ⟨v, prev, none⟩, rfl, ?_, rfl, rfl, rfl⟩
      simp [chainCells_singleton, heapLookup]
    | cons u rest' =>
      rw [chainAt_cons]
      refine ⟨base, ⟨v, prev, some (base + 1)⟩, rfl, ?_, rfl, rfl, ?_⟩
      · rw [chainCells_cons₂]
        simp [heapLookup]
      · have sub := ih (base + 1) (some base)
        have hhd : headPtr (base + 1) (u :: rest') = some (base + 1) := rfl
        rw [hhd] at sub
        refine chainAt_mono ?_ (u :: rest') (some (base + 1)) (some base) sub
        intro a nd hl
        have hdom := chainCells_lookup_domain (u :: rest') (base + 1) (some base) a nd hl
        rw [chainCells_cons₂]
        simp only [heapLookup]
        rw [if_neg (by omega)]
        exact hl

theorem headPtr_nil {T : Type} (base : Nat) : headPtr base ([] : List T) = none := rfl

theorem headPtr_cons {T : Type} (base : Nat) (v : T) (rest : List T) :
    headPtr base (v :: rest) = some base := rfl

theorem tailPtr_nil {T : Type} (base : Nat) : tailPtr base ([] : List T) = none := rfl

theorem tailPtr_cons {T : Type} (base : Nat) (v : T) (rest : List T) :
    tailPtr base (v :: rest) = some (base + rest.length) := rfl

/-! ### The loops, run over a well-formed chain -/

theorem sizeLoop_chainAt {T : Type} (vs : List T) :
    ∀ (h : Heap T) (cur prevA : Option Nat) (result fuel : Nat),
      ChainAt h cur prevA vs → vs.length ≤ fuel →
      sizeLoop h cur result fuel = some (result + vs.length) := by
  induction vs with
  | nil =>
    intro h cur prevA result fuel hc _
    rw [chainAt_nil] at hc
    subst hc
    simp [sizeLoop]
  | cons v rest ih =>
    intro h cur prevA result fuel hc hf
    rw [chainAt_cons] at hc
    obtain ⟨a, nd, hcur, hl, hv, hp, hrest⟩ := hc
    subst hcur
    cases fuel with
    | zero => simp at hf
    | succ fuel' =>
      simp only [sizeLoop, hl]
      rw [ih h nd.next (some a) (result + 1) fuel' hrest
        (by simpa using Nat.le_of_succ_le_succ (by simpa using hf))]
      simp only [Option.some.injEq, List.length_cons]
      omega

theorem renderLoop_chainAt {T : Type} (vs : List T) :
    ∀ (h : Heap T) (toStr : T → String) (cur prevA : Option Nat) (acc : String)
      (fuel : Nat), ChainAt h cur prevA vs → vs.length ≤ fuel →
      renderLoop h toStr cur acc fuel =
        some (vs.foldl (fun s w => s ++ toStr w ++ " ") acc) := by
  induction vs with
  | nil =>
    intro h toStr cur prevA acc fuel hc _
    rw [chainAt_nil] at hc
    subst hc
    simp [renderLoop]
  | cons v rest ih =>
    intro h toStr cur prevA acc fuel hc hf
    rw [chainAt_cons] at hc
    obtain ⟨a, nd, hcur, hl, hv, hp, hrest⟩ := hc
    subst hcur
    cases fuel with
    | zero => simp at hf
    | succ fuel' =>
      simp only [renderLoop, hl]
      rw [ih h toStr nd.next (some a) (acc ++ toStr nd.value ++ " ") fuel' hrest
        (by simpa using Nat.le_of_succ_le_succ (by simpa using hf))]
      rw [hv]
      rfl

theorem indexLoop_chainAt {T : Type} (vs : List T) :
    ∀ (h : Heap T) (toInt : T → Int) (index : Nat) (cur prevA : Option Nat)
      (c fuel : Nat), ChainAt h cur prevA vs → vs.length ≤ fuel →
      indexLoop h toInt index cur c fuel =
        some (if c ≤ index then (vs[index - c]?).map toInt else none) := by
  induction vs with
  | nil =>
    intro h toInt index cur prevA c fuel hc _
    rw [chainAt_nil] at hc
    subst hc
    simp [indexLoop]
  | cons v rest ih =>
    intro h toInt index cur prevA c fuel hc hf
    rw [chainAt_cons] at hc
    obtain ⟨a, nd, hcur, hl, hv, hp, hrest⟩ := hc
    subst hcur
    cases fuel with
    | zero => simp at hf
    | succ fuel' =>
      simp only [indexLoop, hl]
      by_cases hci : c = index
      · rw [if_pos hci]
        subst hci
        simp [hv]
      · rw [if_neg hci]
        rw [ih h toInt index nd.next (some a) (c + 1) fuel' hrest
          (by simpa using Nat.le_of_succ_le_succ (by simpa using hf))]
        by_cases hle : c ≤ index
        · rw [if_pos (by omega), if_pos hle,
            show index - c = (index - (c + 1)) + 1 by omega,
            List.getElem?_cons_succ]
        · rw [if_neg (by omega), if_neg hle]

theorem clearLoop_chainCells {T : Type} (vs : List T) :
    ∀ (base : Nat) (prev : Option Nat) (fuel : Nat), vs.length ≤ fuel →
      clearLoop (chainCells base prev vs) (headPtr base vs) fuel = [] := by
  induction vs with
  | nil =>
    intro base prev fuel _
    rw [chainCells_nil, headPtr_nil]
    simp [clearLoop]
  | cons v rest ih =>
    intro base prev fuel hf
    cases fuel with
    | zero => simp at hf
    | succ fuel' =>
      cases rest with
      | nil =>
        rw [chainCells_singleton, headPtr_cons]
        simp [clearLoop, heapLookup, heapErase]
      | cons u rest' =>
        rw [chainCells_cons₂, headPtr_cons]
        simp only [clearLoop, heapLookup, if_pos rfl, heapErase_cons_self]
        have := ih (base + 1) (some base) fuel'
          (by simpa using Nat.le_of_succ_le_succ (by simpa using hf))
        rw [headPtr_cons] at this
        exact this

theorem walkNext_none {T : Type} (h : Heap T) (s : Nat) :
    walkNext h none s = none := by
  cases s <;> rfl

theorem walkPrev_none {T : Type} (h : Heap T) (s : Nat) :
    walkPrev h none s = none := by
  cases s <;> rfl

theorem walkNext_chainCells {T : Type} (vs : List T) (base : Nat)
    (prev : Option Nat) :
    ∀ (s i : Nat), i < vs.length →
      walkNext (chainCells base prev vs) (some (base + i)) s =
        if i + s < vs.length then some (base + i + s) else none := by
  intro s
  induction s with
  | zero =>
    intro i hi
    rw [if_pos (by omega)]
    rfl
  | succ s' ih =>
    intro i hi
    simp only [walkNext, chainCells_lookup vs base prev i hi]
    by_cases hlast : i + 1 = vs.length
    · rw [if_pos hlast, walkNext_none, if_neg (by omega)]
    · rw [if_neg hlast,
        show base + i + 1 = base + (i + 1) by omega, ih (i + 1) (by omega)]
      by_cases hc : i + 1 + s' < vs.length
      · rw [if_pos hc, if_pos (by omega)]
        congr 1
        omega
      · rw [if_neg hc, if_neg (by omega)]

theorem walkPrev_chainCells {T : Type} (vs : List T) (base : Nat) :
    ∀ (s i : Nat), i < vs.length →
      walkPrev (chainCells base none vs) (some (base + i)) s =
        if s ≤ i then some (base + (i - s)) else none := by
  intro s
  induction s with
  | zero =>
    intro i hi
    rw [if_pos (by omega)]
    rfl
  | succ s' ih =>
    intro i hi
    simp only [walkPrev, chainCells_lookup vs base none i hi]
    cases i with
    | zero =>
      rw [if_pos rfl, walkPrev_none, if_neg (by omega)]
    | succ j =>
      rw [if_neg (by omega : ¬ (j + 1 = 0)),
        show base + (j + 1) - 1 = base + j by omega, ih j (by omega)]
      by_cases hc : s' ≤ j
      · rw [if_pos hc, if_pos (by omega)]
        congr 1
        omega
      · rw [if_neg hc, if_neg (by omega)]

/-! ### The operations preserve the canonical chain shape -/

theorem chainCells_snoc {T : Type} (vs : List T) :
    ∀ (w v : T) (base : Nat) (prev : Option Nat),
      chainCells base prev ((w :: vs) ++ [v]) =
        heapUpdate (chainCells base prev (w :: vs)) (base + vs.length)
            (fun nd => ⟨nd.value, nd.prev, some (base + vs.length + 1)⟩) ++
          [(base + vs.length + 1, ⟨v, some (base + vs.length), none⟩)] := by
  induction vs with
  | nil =>
    intro w v base prev
    simp [chainCells_singleton, chainCells_cons₂, heapUpdate]
  | cons u rest ih =>
    intro w v base prev
    simp only [List.cons_append]
    rw [chainCells_cons₂, chainCells_cons₂]
    simp only [List.length_cons, heapUpdate]
    rw [if_neg (by omega)]
    simp only [List.cons_append]
    congr 1
    rw [show base + (rest.length + 1) = (base + 1) + rest.length by omega]
    have h := ih u v (base + 1) (some base)
    simp only [List.cons_append] at h
    exact h

theorem append_mkState {T : Type} (base : Nat) (vs : List T) (v : T) :
    (mkState base vs).append v = mkState base (vs ++ [v]) := by
  cases vs with
  | nil =>
    simp [mkState, DoublyLinkedList.append, allocNode, ListNode.make,
      chainCells_nil, chainCells_singleton, headPtr, tailPtr]
  | cons w rest =>
    simp only [mkState, DoublyLinkedList.append, headPtr_cons, tailPtr_cons,
      allocNode, ListNode.make, List.length_cons, List.cons_append,
      List.length_append, List.length_singleton, List.length_nil,
      DoublyLinkedList.mk.injEq]
    refine ⟨?_, by omega, trivial, trivial, trivial⟩
    have h := chainCells_snoc rest w v base none
    simp only [List.cons_append] at h
    rw [show base + (rest.length + 1) = base + rest.length + 1 by omega]
    exact h.symm

theorem clear_mkState {T : Type} (base : Nat) (vs : List T) :
    (mkState base vs).clear = mkState (base + vs.length) [] := by
  simp only [mkState, DoublyLinkedList.clear, chainCells_nil, headPtr_nil,
    tailPtr_nil, List.length_nil, DoublyLinkedList.mk.injEq]
  refine ⟨?_, by omega, trivial, trivial, trivial⟩
  rw [chainCells_length]
  exact clearLoop_chainCells vs base none vs.length le_rfl

theorem empty_eq_mkState (T : Type) : DoublyLinkedList.empty T = mkState 0 [] := rfl

theorem runFrom_mkState {T : Type} (ops : List (Op T)) :
    ∀ (base : Nat) (vs : List T),
      ∃ base', runFrom (mkState base vs) ops = mkState base' (ops.foldl modelStep vs) := by
  induction ops with
  | nil => intro base vs; exact ⟨base, rfl⟩
  | cons op rest ih =>
    intro base vs
    cases op with
    | append v =>
      obtain ⟨base', h⟩ := ih base (vs ++ [v])
      refine ⟨base', ?_⟩
      simp only [runFrom, List.foldl_cons] at h ⊢
      rw [show applyOp (mkState base vs) (Op.append v) = mkState base (vs ++ [v])
        from append_mkState base vs v]
      exact h
    | clear =>
      obtain ⟨base', h⟩ := ih (base + vs.length) []
      refine ⟨base', ?_⟩
      simp only [runFrom, List.foldl_cons] at h ⊢
      rw [show applyOp (mkState base vs) Op.clear = mkState (base + vs.length) []
        from clear_mkState base vs]
      exact h

theorem runOps_mkState {T : Type} (ops : List (Op T)) :
    ∃ base, runOps ops = mkState base (opsModel ops) := by
  have h := runFrom_mkState ops 0 []
  simpa [runOps, opsModel, empty_eq_mkState] using h

/-! ### Observations of a canonical state -/

theorem chainCells_lookup_outside {T : Type} (vs : List T) (base : Nat)
    (prev : Option Nat) (a : Nat) (ha : a < base ∨ base + vs.length ≤ a) :
    heapLookup (chainCells base prev vs) a = none := by
  cases hl : heapLookup (chainCells base prev vs) a with
  | none => rfl
  | some nd =>
    have := chainCells_lookup_domain vs base prev a nd hl
    omega

theorem size_mkState {T : Type} (base : Nat) (vs : List T) :
    (mkState base vs).size = vs.length := rfl

theorem size_naive_mkState {T : Type} (base : Nat) (vs : List T) :
    (mkState base vs).size_naive = some vs.length := by
  have hchain := chainAt_chainCells vs base none
  simp only [DoublyLinkedList.size_naive, mkState]
  rw [chainCells_length,
    sizeLoop_chainAt vs (chainCells base none vs) (headPtr base vs) none 0
      (vs.length + 1) hchain (by omega)]
  simp

theorem get_mkState {T : Type} (base : Nat) (vs : List T) (toInt : T → Int)
    (index : Nat) :
    (mkState base vs).get toInt index =
      some (match vs[index]? with
        | some v => Except.ok (toInt v)
        | none => Except.error ("index=" ++ toString index ++
            " larger than list size=" ++ toString vs.length)) := by
  have hchain := chainAt_chainCells vs base none
  have hloop := indexLoop_chainAt vs (chainCells base none vs) toInt index
    (headPtr base vs) none 0 (vs.length + 1) hchain (by omega)
  rw [if_pos (Nat.zero_le index), Nat.sub_zero] at hloop
  simp only [DoublyLinkedList.get, mkState]
  rw [chainCells_length, hloop]
  cases hv : vs[index]? <;> simp [hv]

theorem foldl_renderBody {T : Type} (toStr : T → String) (vs : List T) :
    ∀ acc : String,
      vs.foldl (fun s w => s ++ toStr w ++ " ") acc = acc ++ renderBody toStr vs := by
  induction vs with
  | nil => intro acc; simp [renderBody]
  | cons v rest ih =>
    intro acc
    simp only [List.foldl_cons, renderBody]
    rw [ih]
    simp [String.append_assoc]

theorem render_mkState {T : Type} (base : Nat) (vs : List T) (toStr : T → String) :
    (mkState base vs).render toStr = some ("[ " ++ renderBody toStr vs ++ "]") := by
  have hchain := chainAt_chainCells vs base none
  have hloop := renderLoop_chainAt vs (chainCells base none vs) toStr
    (headPtr base vs) none "[ " (vs.length + 1) hchain (by omega)
  simp only [DoublyLinkedList.render, mkState]
  rw [chainCells_length, hloop, foldl_renderBody]

/-! ### Operational facts used by the claims -/

theorem append_eq_of_none {T : Type} (l : DoublyLinkedList T) (v : T)
    (hb : l.begin = none) :
    l.append v = ⟨allocNode l.heap l.alloc v none none, l.alloc + 1,
      some l.alloc, some l.alloc, l._size + 1⟩ := by
  simp [DoublyLinkedList.append, hb]

theorem append_eq_of_some {T : Type} (l : DoublyLinkedList T) (v : T) (b e : Nat)
    (hb : l.begin = some b) (he : l.«end» = some e) :
    l.append v =
      ⟨allocNode (heapUpdate l.heap e fun nd => ⟨nd.value, nd.prev, some l.alloc⟩)
          l.alloc v (some e) none,
        l.alloc + 1, some b, some l.alloc, l._size + 1⟩ := by
  simp [DoublyLinkedList.append, hb, he]

theorem heapLookup_allocNode_fresh {T : Type} (h : Heap T) (fresh : Nat) (v : T)
    (p n : Option Nat) (hf : heapLookup h fresh = none) :
    heapLookup (allocNode h fresh v p n) fresh = some ⟨v, p, n⟩ := by
  unfold allocNode ListNode.make
  rw [heapLookup_append_right _ hf]
  simp [heapLookup]

theorem heapLookup_allocNode_old {T : Type} {h : Heap T} (fresh : Nat) (v : T)
    (p n : Option Nat) {a : Nat} {nd : ListNode T}
    (ha : heapLookup h a = some nd) :
    heapLookup (allocNode h fresh v p n) a = some nd := by
  unfold allocNode
  exact heapLookup_append_left ha

theorem foldl_append_mkState {T : Type} (vs : List T) :
    ∀ (base : Nat) (ws : List T),
      vs.foldl DoublyLinkedList.append (mkState base ws) = mkState base (ws ++ vs) := by
  induction vs with
  | nil => intro base ws; simp
  | cons v rest ih =>
    intro base ws
    simp only [List.foldl_cons]
    rw [append_mkState, ih]
    simp

/-! ### The claims -/

/-- Claim C1: for every finite sequence of values, appending them in order to
a freshly constructed `DoublyLinkedList` yields a list with `size() = n`,
`size_naive() = n`, and `get(i)` (`operator[]`) returning the `i`-th appended
value for every `i < n`. -/
theorem claim_C1 (vs : List Int) :
    (vs.foldl DoublyLinkedList.append (DoublyLinkedList.empty Int)).size = vs.length ∧
    (vs.foldl DoublyLinkedList.append (DoublyLinkedList.empty Int)).size_naive =
      some vs.length ∧
    ∀ i : Nat, ∀ hi : i < vs.length,
      (vs.foldl DoublyLinkedList.append (DoublyLinkedList.empty Int)).get
        (fun x => x) i = some (Except.ok vs[i]) := by
  have hrep : vs.foldl DoublyLinkedList.append (DoublyLinkedList.empty Int) =
      mkState 0 vs := by
    rw [empty_eq_mkState, foldl_append_mkState]
    simp
  refine ⟨?_, ?_, ?_⟩
  · rw [hrep, size_mkState]
  · rw [hrep, size_naive_mkState]
  · intro i hi
    rw [hrep, get_mkState, List.getElem?_eq_getElem hi]

/-- Witness for C1 at the concrete input of the repository's test case. -/
theorem claim_C1_witness :
    (([123, 456] : List Int).foldl DoublyLinkedList.append
      (DoublyLinkedList.empty Int)).get (fun x => x) 1 = some (Except.ok 456) := by
  have h := (claim_C1 [123, 456]).2.2 1 (by decide)
  simpa using h

/-- Claim C2: on every reachable state, `operator[]` fails exactly when
`index ≥ count`, with the error message
`index=<N> larger than list size=<M>`; for `index < count` it returns a
value. -/
theorem claim_C2 (ops : List (Op Int)) (index : Nat) :
    ((runOps ops).size ≤ index →
      (runOps ops).get (fun x => x) index =
        some (Except.error ("index=" ++ toString index ++
          " larger than list size=" ++ toString (runOps ops).size))) ∧
    (index < (runOps ops).size →
      ∃ v : Int, (runOps ops).get (fun x => x) index = some (Except.ok v)) := by
  obtain ⟨base, hrep⟩ := runOps_mkState ops
  rw [hrep, size_mkState, get_mkState]
  constructor
  · intro hle
    rw [List.getElem?_eq_none hle]
  · intro hlt
    rw [List.getElem?_eq_getElem hlt]
    exact ⟨_, rfl⟩

/-- Witness for C2 at the repository's test case: `list[2]` on a 2-element
list yields exactly the documented message. -/
theorem claim_C2_witness :
    (runOps [Op.append (123 : Int), Op.append 456]).get (fun x => x) 2 =
      some (Except.error "index=2 larger than list size=2") := by
  have h := (claim_C2 [Op.append (123 : Int), Op.append 456] 2).1 (by decide)
  rw [h]
  rfl

/-- Claim C3: on every reachable state, the O(n) recount `size_naive()`
agrees with the maintained `size()`. -/
theorem claim_C3 (T : Type) (ops : List (Op T)) :
    (runOps ops).size_naive = some ((runOps ops).size) := by
  obtain ⟨base, hrep⟩ := runOps_mkState ops
  rw [hrep, size_naive_mkState, size_mkState]

/-- Claim C10: every operation other than `operator[]` is total on reachable
states: the `size_naive` and rendering walks terminate with a value, and
`clear` terminates having freed every node.  (`append`, `clear`, `size` and
construction are total by their types: none of them returns an error
channel; `Except` appears only in `get`, the model of `operator[]`.) -/
theorem claim_C10 (T : Type) (ops : List (Op T)) (toStr : T → String) :
    (∃ n, (runOps ops).size_naive = some n) ∧
    (∃ s, (runOps ops).render toStr = some s) ∧
    (runOps ops).clear.heap = [] := by
  obtain ⟨base, hrep⟩ := runOps_mkState ops
  rw [hrep]
  refine ⟨⟨_, size_naive_mkState base _⟩, ⟨_, render_mkState base _ toStr⟩, ?_⟩
  rw [clear_mkState]
  rfl

/-- Claim C6: `clear()` leaves the list observationally identical to a fresh
list: `begin`/`end` null, `size` 0, every node freed, and any subsequent
operation sequence produces the same observable results as on a freshly
constructed list. -/
theorem claim_C6 (T : Type) (ops more : List (Op T)) (toInt : T → Int)
    (toStr : T → String) (index : Nat) :
    (runOps ops).clear.begin = none ∧
    (runOps ops).clear.«end» = none ∧
    (runOps ops).clear.size = 0 ∧
    (runOps ops).clear.heap = [] ∧
    (runFrom (runOps ops).clear more).size = (runOps more).size ∧
    (runFrom (runOps ops).clear more).size_naive = (runOps more).size_naive ∧
    (runFrom (runOps ops).clear more).get toInt index =
      (runOps more).get toInt index ∧
    (runFrom (runOps ops).clear more).render toStr = (runOps more).render toStr := by
  obtain ⟨base, hrep⟩ := runOps_mkState ops
  rw [hrep, clear_mkState]
  obtain ⟨b₁, h₁⟩ := runFrom_mkState more (base + (opsModel ops).length) []
  obtain ⟨b₂, h₂⟩ := runOps_mkState more
  rw [h₁, h₂]
  have hm : more.foldl modelStep [] = opsModel more := rfl
  rw [hm]
  refine ⟨rfl, rfl, rfl, rfl, ?_, ?_, ?_, ?_⟩
  · rw [size_mkState, size_mkState]
  · rw [size_naive_mkState, size_naive_mkState]
  · rw [get_mkState, get_mkState]
  · rw [render_mkState, render_mkState]

/-- Claim C7: rendering produces `[ `, then each value's textual form
followed by a space in chain order, then `]`; the empty list renders as
`[ ]` and the list holding 123 then 456 renders as `[ 123 456 ]`. -/
theorem claim_C7 :
    (∀ (T : Type) (ops : List (Op T)) (toStr : T → String),
      (runOps ops).render toStr =
        some ("[ " ++ renderBody toStr (opsModel ops) ++ "]")) ∧
    (runOps ([] : List (Op Int))).render toString = some "[ ]" ∧
    (runOps [Op.append (123 : Int), Op.append 456]).render toString =
      some "[ 123 456 ]" := by
  refine ⟨?_, ?_, ?_⟩
  · intro T ops toStr
    obtain ⟨base, hrep⟩ := runOps_mkState ops
    rw [hrep, render_mkState]
  · rfl
  · rfl

/-- Claim C8: `operator[]` is declared to return `int`, not `T`.  With
`T = int` (identity conversion) the returned value equals the stored value
exactly; with an element type whose values are changed by the conversion to
`int` — here exact rationals with the C++ truncating `double -> int`
conversion — indexed access returns a value different from the appended one:
appending 1/2 and reading index 0 yields the int 0, and 0 ≠ 1/2. -/
theorem claim_C8 :
    (∀ (vs : List Int) (i : Nat), ∀ hi : i < vs.length,
      (vs.foldl DoublyLinkedList.append (DoublyLinkedList.empty Int)).get
        (fun x => x) i = some (Except.ok vs[i])) ∧
    ((⟨1, 2, by norm_num, by norm_num⟩ : Rat) = 1 / 2) ∧
    ((DoublyLinkedList.empty Rat).append
        (⟨1, 2, by norm_num, by norm_num⟩ : Rat)).get cppIntOfRat 0 =
      some (Except.ok 0) ∧
    ((0 : Rat) ≠ (1 / 2 : Rat)) := by
  refine ⟨?_, ?_, ?_, by norm_num⟩
  · intro vs i hi
    have hrep : vs.foldl DoublyLinkedList.append (DoublyLinkedList.empty Int) =
        mkState 0 vs := by
      rw [empty_eq_mkState, foldl_append_mkState]
      simp
    rw [hrep, get_mkState, List.getElem?_eq_getElem hi]
  · rw [Rat.mk'_eq_divInt, Rat.divInt_eq_div]
    norm_num
  · rfl

/-- Witness for C8: with `T = int`, reading back a stored 7 returns exactly 7. -/
theorem claim_C8_witness :
    (([7] : List Int).foldl DoublyLinkedList.append
      (DoublyLinkedList.empty Int)).get (fun x => x) 0 = some (Except.ok 7) := by
  have h := claim_C8.1 [7] 0 (by decide)
  simpa using h

/-- Claim C9: the `ListNode` constructor stores exactly its value and the
optional `prev`/`next` links, and allocating such a node modifies no other
heap cell — in particular the referenced neighbours' own links are
untouched. -/
theorem claim_C9 (T : Type) (h : Heap T) (fresh : Nat) (v : T)
    (p n : Option Nat) :
    (ListNode.make v p n).value = v ∧
    (ListNode.make v p n).prev = p ∧
    (ListNode.make v p n).next = n ∧
    (∀ a nd, heapLookup h a = some nd →
      heapLookup (allocNode h fresh v p n) a = some nd) := by
  refine ⟨rfl, rfl, rfl, ?_⟩
  intro a nd ha
  unfold allocNode
  exact heapLookup_append_left ha

/-- Witness for C9 at the repository's node test: node 123 lives at address
0; allocating node2 (value 456, prev pointing at node) leaves node 123
unchanged. -/
theorem claim_C9_witness :
    heapLookup (allocNode [(0, (⟨123, none, none⟩ : ListNode Int))] 1 456
      (some 0) none) 0 = some ⟨123, none, none⟩ :=
  (claim_C9 Int [(0, ⟨123, none, none⟩)] 1 456 (some 0) none).2.2.2 0
    ⟨123, none, none⟩ (by decide)

theorem mkState_end_eq_some {T : Type} {base : Nat} {vs : List T} {e : Nat}
    (he : (mkState base vs).«end» = some e) :
    vs ≠ [] ∧ e = base + (vs.length - 1) := by
  cases vs with
  | nil => simp [mkState, tailPtr] at he
  | cons w rest =>
    simp only [mkState, tailPtr_cons, Option.some.injEq] at he
    refine ⟨by simp, ?_⟩
    simp only [List.length_cons]
    omega

theorem mkState_begin_eq_none {T : Type} {base : Nat} {vs : List T}
    (hb : (mkState base vs).begin = none) : vs = [] := by
  cases vs with
  | nil => rfl
  | cons w rest => simp [mkState, headPtr_cons] at hb

/-- Claim C5: appending to a non-empty list links the new node after the old
tail (`new->prev = old end`, `old end->next = new`, `end = new`), appending
to an empty list makes the new node both `begin` and `end`; in both cases
`count` grows by exactly 1 and no heap cell other than the old tail's is
modified. -/
theorem claim_C5 (T : Type) (ops : List (Op T)) (v : T) :
    ((runOps ops).append v).size = (runOps ops).size + 1 ∧
    ((runOps ops).begin = none →
      ((runOps ops).append v).begin = some (runOps ops).alloc ∧
      ((runOps ops).append v).«end» = some (runOps ops).alloc ∧
      heapLookup ((runOps ops).append v).heap (runOps ops).alloc =
        some ⟨v, none, none⟩) ∧
    (∀ e : Nat, (runOps ops).«end» = some e →
      ((runOps ops).append v).begin = (runOps ops).begin ∧
      ((runOps ops).append v).«end» = some (runOps ops).alloc ∧
      heapLookup ((runOps ops).append v).heap (runOps ops).alloc =
        some ⟨v, some e, none⟩ ∧
      (∀ ndOld, heapLookup (runOps ops).heap e = some ndOld →
        heapLookup ((runOps ops).append v).heap e =
          some ⟨ndOld.value, ndOld.prev, some (runOps ops).alloc⟩) ∧
      (∀ a nd, heapLookup (runOps ops).heap a = some nd → a ≠ e →
        heapLookup ((runOps ops).append v).heap a = some nd)) := by
  obtain ⟨base, hrep⟩ := runOps_mkState ops
  rw [hrep]
  generalize opsModel ops = vs
  refine ⟨?_, ?_, ?_⟩
  · rw [append_mkState, size_mkState, size_mkState]
    simp
  · intro hb
    have hvs := mkState_begin_eq_none hb
    subst hvs
    rw [append_mkState]
    refine ⟨rfl, rfl, ?_⟩
    simp [mkState, chainCells_singleton, heapLookup]
  · intro e he
    obtain ⟨hne, he'⟩ := mkState_end_eq_some he
    have hb : (mkState base vs).begin = some base := by
      cases vs with
      | nil => exact absurd rfl hne
      | cons w rest => rfl
    have heq := append_eq_of_some (mkState base vs) v base e hb he
    have halloc : (mkState base vs).alloc = base + vs.length := rfl
    have hea : e ≠ (mkState base vs).alloc := by
      rw [halloc]
      have : vs.length ≠ 0 := by
        intro h0
        exact hne (List.eq_nil_of_length_eq_zero h0)
      omega
    refine ⟨?_, ?_, ?_, ?_, ?_⟩
    · rw [heq, hb]
    · rw [heq]
    · rw [heq]
      refine heapLookup_allocNode_fresh _ _ _ _ _ ?_
      rw [heapLookup_update_ne _ _ (Ne.symm hea)]
      exact chainCells_lookup_outside vs base none _ (Or.inr (by rw [halloc]))
    · intro ndOld hOld
      rw [heq]
      refine heapLookup_allocNode_old _ _ _ _ ?_
      rw [heapLookup_update_self, hOld]
      rfl
    · intro a nd hnd hane
      rw [heq]
      refine heapLookup_allocNode_old _ _ _ _ ?_
      rw [heapLookup_update_ne _ _ hane]
      exact hnd

/-- Witness for C5: appending 456 to the singleton list [123] updates the old
tail's `next` to the new node's address. -/
theorem claim_C5_witness :
    ((runOps [Op.append (123 : Int)]).append 456).«end» =
        some (runOps [Op.append (123 : Int)]).alloc ∧
    heapLookup ((runOps [Op.append (123 : Int)]).append 456).heap 0 =
      some ⟨123, none, some (runOps [Op.append (123 : Int)]).alloc⟩ := by
  have h := (claim_C5 Int [Op.append (123 : Int)] 456).2.2 0 (by decide)
  refine ⟨h.2.1, ?_⟩
  have hupd := h.2.2.2.1 ⟨123, none, none⟩ (by decide)
  simpa using hupd

/-- Claim C4: structural invariants of every reachable state — `begin` and
`end` are null exactly when `count = 0`; the head's `prev` and the tail's
`next` are null; any two adjacent nodes point at each other (`A.next = B`
and `B.prev = A`); walking `next` from `begin` reaches `end` after
`size() - 1` steps and null after `size()` steps, and symmetrically walking
`prev` from `end` reaches `begin` and then null. -/
theorem claim_C4 (T : Type) (ops : List (Op T)) :
    ((runOps ops).begin = none ↔ (runOps ops).size = 0) ∧
    ((runOps ops).«end» = none ↔ (runOps ops).size = 0) ∧
    (∀ a nda, (runOps ops).begin = some a →
      heapLookup (runOps ops).heap a = some nda → nda.prev = none) ∧
    (∀ a nda, (runOps ops).«end» = some a →
      heapLookup (runOps ops).heap a = some nda → nda.next = none) ∧
    (∀ i a b, walkNext (runOps ops).heap (runOps ops).begin i = some a →
      walkNext (runOps ops).heap (runOps ops).begin (i + 1) = some b →
      ∃ nda ndb, heapLookup (runOps ops).heap a = some nda ∧
        heapLookup (runOps ops).heap b = some ndb ∧
        nda.next = some b ∧ ndb.prev = some a) ∧
    (0 < (runOps ops).size →
      walkNext (runOps ops).heap (runOps ops).begin ((runOps ops).size - 1) =
        (runOps ops).«end» ∧
      walkNext (runOps ops).heap (runOps ops).begin ((runOps ops).size) = none ∧
      walkPrev (runOps ops).heap (runOps ops).«end» ((runOps ops).size - 1) =
        (runOps ops).begin ∧
      walkPrev (runOps ops).heap (runOps ops).«end» ((runOps ops).size) = none) := by
  obtain ⟨base, hrep⟩ := runOps_mkState ops
  rw [hrep]
  generalize opsModel ops = vs
  cases vs with
  | nil =>
    refine ⟨by simp [mkState, headPtr_nil, DoublyLinkedList.size],
            by simp [mkState, tailPtr_nil, DoublyLinkedList.size],
            ?_, ?_, ?_, ?_⟩
    · intro a nda hba
      simp [mkState, headPtr_nil] at hba
    · intro a nda hba
      simp [mkState, tailPtr_nil] at hba
    · intro i a b h1 h2
      rw [show (mkState base ([] : List T)).begin = none from rfl,
        walkNext_none] at h1
      exact absurd h1 (by simp)
    · intro h0
      rw [show (mkState base ([] : List T)).size = 0 from rfl] at h0
      exact absurd h0 (by omega)
  | cons w rest =>
    have hb : (mkState base (w :: rest)).begin = some base := rfl
    have he : (mkState base (w :: rest)).«end» = some (base + rest.length) := rfl
    have hsz : (mkState base (w :: rest)).size = rest.length + 1 := by
      simp [DoublyLinkedList.size, mkState]
    have hheap : (mkState base (w :: rest)).heap =
        chainCells base none (w :: rest) := rfl
    rw [hb, he, hsz, hheap]
    refine ⟨by simp, by simp, ?_, ?_, ?_, ?_⟩
    · intro a nda hba hl
      have hab : base = a := by simpa using hba
      subst hab
      have hc := chainCells_lookup (w :: rest) base none 0 (by simp)
      rw [Nat.add_zero] at hc
      rw [hc] at hl
      have hnd : nda = _ := (Option.some.inj hl).symm
      rw [hnd]
      rfl
    · intro a nda hba hl
      have hab : base + rest.length = a := by simpa using hba
      subst hab
      have hc := chainCells_lookup (w :: rest) base none rest.length (by simp)
      rw [hc] at hl
      have hnd : nda = _ := (Option.some.inj hl).symm
      rw [hnd]
      simp
    · intro i a b h1 h2
      rw [show (some base : Option Nat) = some (base + 0) from by
        rw [Nat.add_zero]] at h1 h2
      rw [walkNext_chainCells (w :: rest) base none i 0 (by simp)] at h1
      rw [walkNext_chainCells (w :: rest) base none (i + 1) 0 (by simp)] at h2
      simp only [List.length_cons, Nat.zero_add, Nat.add_zero] at h1 h2
      by_cases hi1 : i + 1 < rest.length + 1
      · rw [if_pos hi1] at h2
        rw [if_pos (by omega)] at h1
        have ha : base + i = a := Option.some.inj h1
        have hbb : base + (i + 1) = b := Option.some.inj h2
        subst ha
        subst hbb
        have hci := chainCells_lookup (w :: rest) base none i
          (by simp only [List.length_cons]; omega)
        have hci1 := chainCells_lookup (w :: rest) base none (i + 1)
          (by simp only [List.length_cons]; omega)
        refine ⟨_, _, hci, hci1, ?_, ?_⟩
        · have hcond : ¬ (i + 1 = (w :: rest).length) := by
            simp only [List.length_cons]
            omega
          rw [if_neg hcond]
          exact congrArg some (by omega)
        · have hcond : ¬ (i + 1 = 0) := by omega
          rw [if_neg hcond]
          exact congrArg some (by omega)
      · rw [if_neg hi1] at h2
        exact absurd h2 (by simp)
    · intro h0
      simp only [Nat.add_sub_cancel]
      rw [show (some base : Option Nat) = some (base + 0) from by
        rw [Nat.add_zero]]
      rw [walkNext_chainCells (w :: rest) base none rest.length 0 (by simp),
        walkNext_chainCells (w :: rest) base none (rest.length + 1) 0 (by simp),
        walkPrev_chainCells (w :: rest) base rest.length rest.length
          (by simp),
        walkPrev_chainCells (w :: rest) base (rest.length + 1) rest.length
          (by simp)]
      refine ⟨?_, ?_, ?_, ?_⟩
      · rw [if_pos (by simp only [List.length_cons]; omega)]
        simp
      · rw [if_neg (by simp only [List.length_cons]; omega)]
      · rw [if_pos le_rfl]
        simp
      · rw [if_neg (by omega)]

/-- Witness for C4: on the two-element list [123, 456] the head and tail
nodes point at each other. -/
theorem claim_C4_witness :
    ∃ nda ndb,
      heapLookup (runOps [Op.append (123 : Int), Op.append 456]).heap 0 =
        some nda ∧
      heapLookup (runOps [Op.append (123 : Int), Op.append 456]).heap 1 =
        some ndb ∧
      nda.next = some 1 ∧ ndb.prev = some 0 := by
  have h := (claim_C4 Int [Op.append (123 : Int), Op.append 456]).2.2.2.2.1 0 0 1
    (by decide) (by decide)
  exact h
